import Mathlib

/-!
# Verification of the ghreporting fetch-and-aggregate pipeline

A shallow embedding of the Go sources of `ghreporting`
(`internal/models/types.go`, the reporter package, and
`internal/client/github.go`), together with theorems settling the
specified properties of the branch selector, the repository processor,
the fetch coordinator, the aggregator and the client commit listing.

Go maps are modelled as association lists with lookup (`getA`) and
replace-or-append update (`setA`), which reproduces Go's map read/write
semantics; machine integers are modelled as `Int` (the counted
quantities stay far from the 64-bit range in every statement proved
here, so wrap-around is immaterial to the stated equalities).
-/

namespace GhReporting

/-- `models.Author` from `internal/models/types.go`. -/
structure Author where
  name : String
  email : String
  login : String
deriving DecidableEq

/-- `models.CommitStats` from `internal/models/types.go`. -/
structure CommitStats where
  additions : Int
  deletions : Int
  total : Int
deriving DecidableEq

/-- `models.Commit` from `internal/models/types.go`; `Date` (a
`time.Time`) is modelled as an integer timestamp. -/
structure Commit where
  sha : String
  message : String
  author : Author
  date : Int
  stats : CommitStats
deriving DecidableEq

/-- `models.Branch` from `internal/models/types.go`. -/
structure Branch where
  name : String
  sha : String
  commits : List Commit
deriving DecidableEq

/-- `models.Repository` from `internal/models/types.go`. -/
structure Repository where
  name : String
  fullName : String
  url : String
  defaultBranch : String
  branches : List Branch
deriving DecidableEq

/-- `models.RepositoryStats` from `internal/models/types.go`. -/
structure RepositoryStats where
  commits : Int
  additions : Int
  deletions : Int
deriving DecidableEq

/-- `models.ContributorStats` from `internal/models/types.go`; the
`Repositories` Go map is modelled as an association list. -/
structure ContributorStats where
  name : String
  email : String
  login : String
  totalCommits : Int
  totalAdditions : Int
  totalDeletions : Int
  repositories : List (String × RepositoryStats)
deriving DecidableEq

/-- Go map read: the value bound to `k`, if any. -/
def getA {α : Type} : List (String × α) → String → Option α
  | [], _ => none
  | (k', v) :: rest, k => if k' = k then some v else getA rest k

/-- Go map write: replace the binding of `k` in place, or append a new
binding when `k` is absent. -/
def setA {α : Type} : List (String × α) → String → α → List (String × α)
  | [], k, v => [(k, v)]
  | (k', v') :: rest, k, v =>
    if k' = k then (k, v) :: rest else (k', v') :: setA rest k v

/-- `getAuthorKey` from the reporter (`types.go`): login, else email,
else display name. -/
def getAuthorKey (author : Author) : String :=
  if author.login ≠ "" then author.login
  else if author.email ≠ "" then author.email
  else author.name

/-- The fixed `importantBranches` literal from `selectBranchesToProcess`. -/
def importantBranches : List String :=
  ["main", "master", "develop", "dev", "staging", "production"]

/-- The priority-list loop of `selectBranchesToProcess`: for each name
not yet marked in `branchMap` (modelled as the list `seen` of marked
names), append the first input branch with that name. -/
def selectLoop (branches : List Branch) :
    List String → List Branch → List String → List Branch
  | [], selected, _ => selected
  | n :: ns, selected, seen =>
    if seen.contains n then selectLoop branches ns selected seen
    else
      match branches.find? (fun b => b.name == n) with
      | some b => selectLoop branches ns (selected ++ [b]) (b.name :: seen)
      | none => selectLoop branches ns selected seen

/-- `selectBranchesToProcess` from the reporter (`types.go`): the first
branch named like the default branch (if any), then the priority-list
loop. -/
def selectBranchesToProcess (branches : List Branch) (defaultBranch : String) :
    List Branch :=
  match branches.find? (fun b => b.name == defaultBranch) with
  | some b => selectLoop branches importantBranches [b] [b.name]
  | none => selectLoop branches importantBranches [] []

/-- The branch-selection policy as §4.1 of the design document states
it: the branch matching the default name placed first, then, for each
priority-list name not already included, the first input branch with
that name, in priority-list order. -/
def selectSpec (branches : List Branch) (defaultBranch : String) :
    List Branch :=
  let defSel :=
    match branches.find? (fun b => b.name == defaultBranch) with
    | some b => [b]
    | none => []
  defSel ++
    (importantBranches.filter
        (fun n => !(defSel.any (fun b => b.name == n)))).filterMap
      (fun n => branches.find? (fun b => b.name == n))

/-! ## Branch Selector lemmas -/

theorem selectLoop_congr (branches : List Branch) :
    ∀ (ns : List String) (sel : List Branch) (seen₁ seen₂ : List String),
      (∀ n ∈ ns, seen₁.contains n = seen₂.contains n) →
      selectLoop branches ns sel seen₁ = selectLoop branches ns sel seen₂ := by
  intro ns
  induction ns with
  | nil => intro sel s₁ s₂ _; rfl
  | cons n ns ih =>
    intro sel s₁ s₂ h
    have hn := h n (List.mem_cons_self n ns)
    have hrest : ∀ m ∈ ns, s₁.contains m = s₂.contains m :=
      fun m hm => h m (List.mem_cons_of_mem n hm)
    simp only [selectLoop]
    rw [hn]
    cases hc : s₂.contains n with
    | true => simp only [if_pos rfl]; exact ih sel s₁ s₂ hrest
    | false =>
      simp only [Bool.false_eq_true, if_neg (fun h' => h')]
      cases hf : branches.find? (fun b => b.name == n) with
      | none => exact ih sel s₁ s₂ hrest
      | some b =>
        apply ih
        intro m hm
        simp only [List.contains_cons, hrest m hm]

theorem selectLoop_eq (branches : List Branch) :
    ∀ (ns : List String), ns.Nodup → ∀ (sel : List Branch) (seen : List String),
      selectLoop branches ns sel seen =
        sel ++ (ns.filter (fun n => !seen.contains n)).filterMap
          (fun n => branches.find? (fun b => b.name == n)) := by
  intro ns
  induction ns with
  | nil => intro _ sel seen; simp [selectLoop]
  | cons n ns ih =>
    intro hnd sel seen
    obtain ⟨hn_notmem, hnd'⟩ := List.nodup_cons.mp hnd
    simp only [selectLoop]
    cases hc : seen.contains n with
    | true =>
      have hmem : n ∈ seen := by simpa using hc
      rw [ih hnd' sel seen]
      simp [List.filter_cons, hmem]
    | false =>
      have hmem : n ∉ seen := by simpa using hc
      cases hf : branches.find? (fun b => b.name == n) with
      | none =>
        rw [ih hnd' sel seen]
        simp [List.filter_cons, List.filterMap_cons, hmem, hf]
      | some b =>
        have hbn : b.name = n := by simpa using List.find?_some hf
        simp only [Bool.false_eq_true, if_neg (fun h' => h')]
        rw [selectLoop_congr branches ns (sel ++ [b]) (b.name :: seen) seen ?_]
        · rw [ih hnd' (sel ++ [b]) seen]
          simp [List.filter_cons, List.filterMap_cons, hmem, hf]
        · intro m hm
          have hmn : ¬(m = b.name) := fun e => hn_notmem (by rw [← hbn]; exact e ▸ hm)
          simp [List.contains_cons, hmn]

theorem importantBranches_nodup : importantBranches.Nodup := by decide

theorem select_eq_selectSpec (branches : List Branch) (d : String) :
    selectBranchesToProcess branches d = selectSpec branches d := by
  unfold selectBranchesToProcess selectSpec
  cases hf : branches.find? (fun b => b.name == d) with
  | none =>
    dsimp only
    rw [selectLoop_eq branches importantBranches importantBranches_nodup [] []]
    simp
  | some b =>
    have hbn : b.name = d := by simpa using List.find?_some hf
    dsimp only
    rw [selectLoop_eq branches importantBranches importantBranches_nodup [b] [b.name]]
    simp only [List.nil_append, List.cons_append]
    congr 2
    apply List.filter_congr
    intro n _
    simp only [List.contains_cons, List.contains_nil, List.any_cons, List.any_nil,
      Bool.or_false, hbn, Bool.beq_comm]

/-- C4: for every branch list and default-branch name,
`selectBranchesToProcess` returns the first input branch named like the
default (placed first, when present), then, for each priority-list name
(`main, master, develop, dev, staging, production`) not already
included, the first input branch with that name, in priority-list
order; branches matching none of these names never appear, and an empty
selection is an ordinary (non-error) result — i.e. the code equals the
spec-side policy `selectSpec`. -/
theorem selectBranchesToProcess_matches_policy
    (branches : List Branch) (defaultBranch : String) :
    selectBranchesToProcess branches defaultBranch =
      selectSpec branches defaultBranch :=
  select_eq_selectSpec branches defaultBranch

/-- The branch list of the §8 end-to-end Branch Selector scenario. -/
def scenarioBranches : List Branch :=
  [⟨"feature/x", "", []⟩, ⟨"main", "", []⟩, ⟨"develop", "", []⟩,
   ⟨"master", "", []⟩, ⟨"feature/y", "", []⟩]

/-- C5 counterexample: on the scenario input
`[feature/x, main, develop, master, feature/y]` with default `main`,
the selector does NOT return `[main, develop, master]` in that order. -/
theorem selectBranches_scenario_order_refuted :
    selectBranchesToProcess scenarioBranches "main" ≠
      [⟨"main", "", []⟩, ⟨"develop", "", []⟩, ⟨"master", "", []⟩] := by
  decide

/-- C5 (amended): on the scenario input the selector returns exactly
`[main, master, develop]` — default branch first, then the remaining
matches in priority-list order (`master` before `develop`). -/
theorem selectBranches_scenario_result :
    selectBranchesToProcess scenarioBranches "main" =
      [⟨"main", "", []⟩, ⟨"master", "", []⟩, ⟨"develop", "", []⟩] := by
  decide

/-- C3: author key resolution is a total, deterministic function of the
`Author` record: the login when non-empty, else the email when
non-empty, else the display name. -/
theorem getAuthorKey_resolution (a : Author) :
    (a.login ≠ "" → getAuthorKey a = a.login) ∧
    (a.login = "" → a.email ≠ "" → getAuthorKey a = a.email) ∧
    (a.login = "" → a.email = "" → getAuthorKey a = a.name) := by
  refine ⟨?_, ?_, ?_⟩
  · intro h; simp [getAuthorKey, h]
  · intro h₁ h₂; simp [getAuthorKey, h₁, h₂]
  · intro h₁ h₂; simp [getAuthorKey, h₁, h₂]

/-- Witness for C3 at a concrete author with empty login. -/
theorem getAuthorKey_resolution_witness :
    ("" : String) = "" ∧ ("jane@example.com" : String) ≠ "" ∧
      getAuthorKey ⟨"Jane Doe", "jane@example.com", ""⟩ = "jane@example.com" :=
  ⟨rfl, by decide,
    (getAuthorKey_resolution ⟨"Jane Doe", "jane@example.com", ""⟩).2.1 rfl
      (by decide)⟩

/-! ## Aggregator -/

/-- The seeding of a fresh `ContributorStats` on first sight of an
author key in `generateSummary`. -/
def seedStats (a : Author) : ContributorStats :=
  { name := a.name, email := a.email, login := a.login,
    totalCommits := 0, totalAdditions := 0, totalDeletions := 0,
    repositories := [] }

/-- The per-commit update of `generateSummary`: bump the global totals
and the per-repository bucket for `repoFullName` (a missing bucket
reads as the Go zero value). -/
def bumpStats (stats : ContributorStats) (repoFullName : String)
    (cs : CommitStats) : ContributorStats :=
  let repoStats := (getA stats.repositories repoFullName).getD ⟨0, 0, 0⟩
  { stats with
    totalCommits := stats.totalCommits + 1,
    totalAdditions := stats.totalAdditions + cs.additions,
    totalDeletions := stats.totalDeletions + cs.deletions,
    repositories := setA stats.repositories repoFullName
      ⟨repoStats.commits + 1, repoStats.additions + cs.additions,
        repoStats.deletions + cs.deletions⟩ }

/-- The body of `generateSummary`'s innermost loop: look the author key
up (seeding on first sight), bump, store back. -/
def applyCommit (summary : List (String × ContributorStats))
    (repoFullName : String) (commit : Commit) :
    List (String × ContributorStats) :=
  let authorKey := getAuthorKey commit.author
  let stats :=
    match getA summary authorKey with
    | some s => s
    | none => seedStats commit.author
  setA summary authorKey (bumpStats stats repoFullName commit.stats)

/-- `generateSummary` from the reporter (`types.go`): fold every commit
of every branch of every repository into the summary map. -/
def generateSummary (repos : List Repository) :
    List (String × ContributorStats) :=
  repos.foldl
    (fun summary repo =>
      repo.branches.foldl
        (fun summary branch =>
          branch.commits.foldl
            (fun summary commit => applyCommit summary repo.fullName commit)
            summary)
        summary)
    []

/-- The traversal order of `generateSummary`, flattened: each commit
paired with the full name of the repository it was found in. -/
def flattenCommits (repos : List Repository) : List (String × Commit) :=
  repos.flatMap (fun repo =>
    repo.branches.flatMap (fun b =>
      b.commits.map (fun c => (repo.fullName, c))))

/-- `generateSummary` as a single fold over a flattened commit list. -/
def aggFold (summary : List (String × ContributorStats))
    (l : List (String × Commit)) : List (String × ContributorStats) :=
  l.foldl (fun s rc => applyCommit s rc.1 rc.2) summary

theorem aggFold_append (s : List (String × ContributorStats))
    (l₁ l₂ : List (String × Commit)) :
    aggFold s (l₁ ++ l₂) = aggFold (aggFold s l₁) l₂ := by
  simp [aggFold, List.foldl_append]

theorem commits_foldl_eq (fullName : String) (cs : List Commit)
    (s : List (String × ContributorStats)) :
    cs.foldl (fun summary commit => applyCommit summary fullName commit) s =
      aggFold s (cs.map (fun c => (fullName, c))) := by
  rw [aggFold, List.foldl_map]

theorem branches_foldl_eq (fullName : String) (bs : List Branch)
    (s : List (String × ContributorStats)) :
    bs.foldl
        (fun summary branch =>
          branch.commits.foldl
            (fun summary commit => applyCommit summary fullName commit)
            summary)
        s =
      aggFold s (bs.flatMap (fun b => b.commits.map (fun c => (fullName, c)))) := by
  induction bs generalizing s with
  | nil => simp [aggFold]
  | cons b bs ih =>
    rw [List.foldl_cons, List.flatMap_cons, aggFold_append, ← commits_foldl_eq,
      ih]

theorem generateSummary_eq_aggFold (repos : List Repository) :
    generateSummary repos = aggFold [] (flattenCommits repos) := by
  suffices h : ∀ (rs : List Repository) (s : List (String × ContributorStats)),
      rs.foldl
          (fun summary repo =>
            repo.branches.foldl
              (fun summary branch =>
                branch.commits.foldl
                  (fun summary commit =>
                    applyCommit summary repo.fullName commit)
                  summary)
              summary)
          s =
        aggFold s (flattenCommits rs) by
    exact h repos []
  intro rs
  induction rs with
  | nil => intro s; simp [aggFold, flattenCommits]
  | cons repo rs ih =>
    intro s
    rw [List.foldl_cons, flattenCommits, List.flatMap_cons, aggFold_append,
      ← flattenCommits, ← branches_foldl_eq, ih]

/-! ## Aggregator totals invariant (C1) -/

/-- Sum of the `Commits` field over a `Repositories` map. -/
def sumCommits (m : List (String × RepositoryStats)) : Int :=
  (m.map (fun p => p.2.commits)).sum

/-- Sum of the `Additions` field over a `Repositories` map. -/
def sumAdditions (m : List (String × RepositoryStats)) : Int :=
  (m.map (fun p => p.2.additions)).sum

/-- Sum of the `Deletions` field over a `Repositories` map. -/
def sumDeletions (m : List (String × RepositoryStats)) : Int :=
  (m.map (fun p => p.2.deletions)).sum

theorem setA_bump_sums (m : List (String × RepositoryStats)) (r : String)
    (a d : Int) :
    sumCommits (setA m r
        ⟨((getA m r).getD ⟨0, 0, 0⟩).commits + 1,
          ((getA m r).getD ⟨0, 0, 0⟩).additions + a,
          ((getA m r).getD ⟨0, 0, 0⟩).deletions + d⟩) = sumCommits m + 1 ∧
      sumAdditions (setA m r
        ⟨((getA m r).getD ⟨0, 0, 0⟩).commits + 1,
          ((getA m r).getD ⟨0, 0, 0⟩).additions + a,
          ((getA m r).getD ⟨0, 0, 0⟩).deletions + d⟩) = sumAdditions m + a ∧
      sumDeletions (setA m r
        ⟨((getA m r).getD ⟨0, 0, 0⟩).commits + 1,
          ((getA m r).getD ⟨0, 0, 0⟩).additions + a,
          ((getA m r).getD ⟨0, 0, 0⟩).deletions + d⟩) = sumDeletions m + d := by
  induction m with
  | nil => simp [getA, setA, sumCommits, sumAdditions, sumDeletions]
  | cons p rest ih =>
    obtain ⟨k, v⟩ := p
    by_cases hk : k = r
    · subst hk
      simp [getA, setA, sumCommits, sumAdditions, sumDeletions]
      omega
    · simp only [getA, setA, hk, if_false, sumCommits, sumAdditions,
        sumDeletions, List.map_cons, List.sum_cons] at ih ⊢
      omega

theorem getA_mem {α : Type} (m : List (String × α)) (k : String) (v : α)
    (h : getA m k = some v) : (k, v) ∈ m := by
  induction m with
  | nil => simp [getA] at h
  | cons p rest ih =>
    obtain ⟨k₀, v₀⟩ := p
    by_cases hk : k₀ = k
    · subst hk
      simp [getA] at h
      simp [h]
    · simp only [getA, hk, if_false] at h
      exact List.mem_cons_of_mem _ (ih h)

theorem mem_setA {α : Type} (m : List (String × α)) (k : String) (v : α)
    (e : String × α) (he : e ∈ setA m k v) : e = (k, v) ∨ e ∈ m := by
  induction m with
  | nil => simpa [setA] using he
  | cons p rest ih =>
    obtain ⟨k₀, v₀⟩ := p
    by_cases hk : k₀ = k
    · subst hk
      simp only [setA, if_pos rfl] at he
      rcases List.mem_cons.mp he with h | h
      · exact Or.inl h
      · exact Or.inr (List.mem_cons_of_mem _ h)
    · simp only [setA, hk, if_false] at he
      rcases List.mem_cons.mp he with h | h
      · exact Or.inr (h ▸ List.mem_cons_self _ _)
      · rcases ih h with h' | h'
        · exact Or.inl h'
        · exact Or.inr (List.mem_cons_of_mem _ h')

/-- The §3 cross-check invariant on one contributor entry. -/
def statsConsistent (s : ContributorStats) : Prop :=
  s.totalCommits = sumCommits s.repositories ∧
  s.totalAdditions = sumAdditions s.repositories ∧
  s.totalDeletions = sumDeletions s.repositories

theorem applyCommit_consistent (m : List (String × ContributorStats))
    (r : String) (c : Commit) (h : ∀ e ∈ m, statsConsistent e.2) :
    ∀ e ∈ applyCommit m r c, statsConsistent e.2 := by
  intro e he
  simp only [applyCommit] at he
  rcases mem_setA _ _ _ _ he with rfl | hm
  · have hbase :
        statsConsistent
          (match getA m (getAuthorKey c.author) with
            | some s => s
            | none => seedStats c.author) := by
      cases hb : getA m (getAuthorKey c.author) with
      | some s => exact h _ (getA_mem _ _ _ hb)
      | none =>
        simp [statsConsistent, seedStats, sumCommits, sumAdditions,
          sumDeletions]
    obtain ⟨h₁, h₂, h₃⟩ := hbase
    obtain ⟨g₁, g₂, g₃⟩ :=
      setA_bump_sums
        (match getA m (getAuthorKey c.author) with
          | some s => s
          | none => seedStats c.author).repositories
        r c.stats.additions c.stats.deletions
    exact ⟨by simp [bumpStats]; omega, by simp [bumpStats]; omega,
      by simp [bumpStats]; omega⟩
  · exact h e hm

theorem aggFold_consistent (l : List (String × Commit))
    (m : List (String × ContributorStats))
    (h : ∀ e ∈ m, statsConsistent e.2) :
    ∀ e ∈ aggFold m l, statsConsistent e.2 := by
  induction l generalizing m with
  | nil => exact h
  | cons rc l ih => exact ih _ (applyCommit_consistent _ _ _ h)

/-- C1: in every summary `generateSummary` produces, every contributor
entry's `TotalCommits` equals the sum of `Commits` over the entries of
its `Repositories` map, and likewise for `TotalAdditions` against
per-repository `Additions` and `TotalDeletions` against per-repository
`Deletions`. -/
theorem generateSummary_totals_match_repo_sums (repos : List Repository) :
    ∀ e ∈ generateSummary repos,
      e.2.totalCommits = sumCommits e.2.repositories ∧
      e.2.totalAdditions = sumAdditions e.2.repositories ∧
      e.2.totalDeletions = sumDeletions e.2.repositories := by
  rw [generateSummary_eq_aggFold]
  exact aggFold_consistent _ _ (by simp)

/-- The two-commit single-repository input of the reporter's own
`TestGenerateSummary` test. -/
def demoRepos : List Repository :=
  [{ name := "repo1", fullName := "owner/repo1", url := "",
     defaultBranch := "main",
     branches :=
      [{ name := "main", sha := "",
         commits :=
          [{ sha := "abc123", message := "Test commit",
             author := ⟨"John Doe", "john@example.com", "johndoe"⟩,
             date := 0, stats := ⟨10, 5, 15⟩ },
           { sha := "def456", message := "Another commit",
             author := ⟨"John Doe", "john@example.com", "johndoe"⟩,
             date := 0, stats := ⟨20, 3, 23⟩ }] }] }]

/-- The contributor entry `generateSummary` produces on `demoRepos`. -/
def demoEntry : String × ContributorStats :=
  ("johndoe",
    { name := "John Doe", email := "john@example.com", login := "johndoe",
      totalCommits := 2, totalAdditions := 30, totalDeletions := 8,
      repositories := [("owner/repo1", ⟨2, 30, 8⟩)] })

/-- Witness for C1 on the test repository list. -/
theorem generateSummary_totals_match_repo_sums_witness :
    demoEntry ∈ generateSummary demoRepos ∧
      (demoEntry.2.totalCommits = sumCommits demoEntry.2.repositories ∧
        demoEntry.2.totalAdditions = sumAdditions demoEntry.2.repositories ∧
        demoEntry.2.totalDeletions = sumDeletions demoEntry.2.repositories) :=
  ⟨by decide, generateSummary_totals_match_repo_sums demoRepos demoEntry
    (by decide)⟩

/-! ## Aggregator traversal-order analysis (C2) -/

theorem getA_setA_self {α : Type} (m : List (String × α)) (k : String)
    (v : α) : getA (setA m k v) k = some v := by
  induction m with
  | nil => simp [getA, setA]
  | cons p rest ih =>
    obtain ⟨k₀, v₀⟩ := p
    by_cases h : k₀ = k <;> simp [getA, setA, h, ih]

theorem getA_setA_ne {α : Type} (m : List (String × α)) (k k' : String)
    (v : α) (h : k ≠ k') : getA (setA m k v) k' = getA m k' := by
  induction m with
  | nil => simp [getA, setA, h]
  | cons p rest ih =>
    obtain ⟨k₀, v₀⟩ := p
    by_cases h₀ : k₀ = k
    · subst h₀
      simp [getA, setA, h]
    · simp [getA, setA, h₀, ih]

/-- The author key of a flattened commit entry. -/
def entryKey (rc : String × Commit) : String := getAuthorKey rc.2.author

/-- Entries attributed to author key `k`. -/
def keyPred (k : String) (rc : String × Commit) : Bool := entryKey rc == k

/-- Entries attributed to author key `k` found in repository `r`. -/
def repPred (k r : String) (rc : String × Commit) : Bool :=
  (entryKey rc == k) && (rc.1 == r)

/-- Number of commits with author key `k` in a flattened list. -/
def cKey (l : List (String × Commit)) (k : String) : Int :=
  ((l.filter (keyPred k)).length : Int)

/-- Summed additions of commits with author key `k`. -/
def aKey (l : List (String × Commit)) (k : String) : Int :=
  ((l.filter (keyPred k)).map (fun rc => rc.2.stats.additions)).sum

/-- Summed deletions of commits with author key `k`. -/
def dKey (l : List (String × Commit)) (k : String) : Int :=
  ((l.filter (keyPred k)).map (fun rc => rc.2.stats.deletions)).sum

/-- Number of commits with author key `k` in repository `r`. -/
def cRep (l : List (String × Commit)) (k r : String) : Int :=
  ((l.filter (repPred k r)).length : Int)

/-- Summed additions of commits with author key `k` in repository `r`. -/
def aRep (l : List (String × Commit)) (k r : String) : Int :=
  ((l.filter (repPred k r)).map (fun rc => rc.2.stats.additions)).sum

/-- Summed deletions of commits with author key `k` in repository `r`. -/
def dRep (l : List (String × Commit)) (k r : String) : Int :=
  ((l.filter (repPred k r)).map (fun rc => rc.2.stats.deletions)).sum

/-- Whether some commit carries author key `k`. -/
def anyKey (l : List (String × Commit)) (k : String) : Bool :=
  l.any (keyPred k)

/-- Whether some commit carries author key `k` in repository `r`. -/
def anyRep (l : List (String × Commit)) (k r : String) : Bool :=
  l.any (repPred k r)

/-- `TotalCommits` of an optional contributor entry (0 when absent). -/
def totC : Option ContributorStats → Int
  | none => 0
  | some s => s.totalCommits

/-- `TotalAdditions` of an optional contributor entry (0 when absent). -/
def totA : Option ContributorStats → Int
  | none => 0
  | some s => s.totalAdditions

/-- `TotalDeletions` of an optional contributor entry (0 when absent). -/
def totD : Option ContributorStats → Int
  | none => 0
  | some s => s.totalDeletions

/-- Presence of a contributor entry. -/
def hasEntry (o : Option ContributorStats) : Bool := o.isSome

/-- `Commits` of the `r` bucket of an optional contributor entry. -/
def repC : Option ContributorStats → String → Int
  | none, _ => 0
  | some s, r =>
    match getA s.repositories r with
    | none => 0
    | some b => b.commits

/-- `Additions` of the `r` bucket of an optional contributor entry. -/
def repA : Option ContributorStats → String → Int
  | none, _ => 0
  | some s, r =>
    match getA s.repositories r with
    | none => 0
    | some b => b.additions

/-- `Deletions` of the `r` bucket of an optional contributor entry. -/
def repD : Option ContributorStats → String → Int
  | none, _ => 0
  | some s, r =>
    match getA s.repositories r with
    | none => 0
    | some b => b.deletions

/-- Presence of the `r` bucket of an optional contributor entry. -/
def hasRep : Option ContributorStats → String → Bool
  | none, _ => false
  | some s, r => (getA s.repositories r).isSome

theorem applyCommit_getA_ne (m : List (String × ContributorStats))
    (r : String) (c : Commit) (k : String)
    (h : getAuthorKey c.author ≠ k) :
    getA (applyCommit m r c) k = getA m k := by
  simp only [applyCommit]
  exact getA_setA_ne _ _ _ _ h

theorem applyCommit_getA_eq (m : List (String × ContributorStats))
    (r : String) (c : Commit) :
    getA (applyCommit m r c) (getAuthorKey c.author) =
      some (bumpStats ((getA m (getAuthorKey c.author)).getD
        (seedStats c.author)) r c.stats) := by
  simp only [applyCommit]
  rw [getA_setA_self]
  cases getA m (getAuthorKey c.author) <;> rfl

theorem bumpStats_getA_rep (s : ContributorStats) (r : String)
    (cs : CommitStats) (r' : String) :
    getA (bumpStats s r cs).repositories r' =
      if r = r' then
        some ⟨((getA s.repositories r).getD ⟨0, 0, 0⟩).commits + 1,
          ((getA s.repositories r).getD ⟨0, 0, 0⟩).additions + cs.additions,
          ((getA s.repositories r).getD ⟨0, 0, 0⟩).deletions + cs.deletions⟩
      else getA s.repositories r' := by
  simp only [bumpStats]
  by_cases h : r = r'
  · subst h
    simp [getA_setA_self]
  · simp [getA_setA_ne _ _ _ _ h, h]

theorem step_hasEntry (m : List (String × ContributorStats)) (r₀ : String)
    (c₀ : Commit) (k : String) (hk : getAuthorKey c₀.author = k) :
    hasEntry (getA (applyCommit m r₀ c₀) k) = true := by
  rw [← hk, applyCommit_getA_eq]
  rfl

theorem step_totC (m : List (String × ContributorStats)) (r₀ : String)
    (c₀ : Commit) (k : String) (hk : getAuthorKey c₀.author = k) :
    totC (getA (applyCommit m r₀ c₀) k) = totC (getA m k) + 1 := by
  rw [← hk, applyCommit_getA_eq]
  cases h : getA m (getAuthorKey c₀.author) <;>
    simp [totC, bumpStats, seedStats]

theorem step_totA (m : List (String × ContributorStats)) (r₀ : String)
    (c₀ : Commit) (k : String) (hk : getAuthorKey c₀.author = k) :
    totA (getA (applyCommit m r₀ c₀) k) =
      totA (getA m k) + c₀.stats.additions := by
  rw [← hk, applyCommit_getA_eq]
  cases h : getA m (getAuthorKey c₀.author) <;>
    simp [totA, bumpStats, seedStats]

theorem step_totD (m : List (String × ContributorStats)) (r₀ : String)
    (c₀ : Commit) (k : String) (hk : getAuthorKey c₀.author = k) :
    totD (getA (applyCommit m r₀ c₀) k) =
      totD (getA m k) + c₀.stats.deletions := by
  rw [← hk, applyCommit_getA_eq]
  cases h : getA m (getAuthorKey c₀.author) <;>
    simp [totD, bumpStats, seedStats]

theorem step_hasRep (m : List (String × ContributorStats)) (r₀ : String)
    (c₀ : Commit) (k : String) (hk : getAuthorKey c₀.author = k)
    (r : String) :
    hasRep (getA (applyCommit m r₀ c₀) k) r =
      (hasRep (getA m k) r || (r₀ == r)) := by
  rw [← hk, applyCommit_getA_eq]
  by_cases hr : r₀ = r
  · subst hr
    cases h : getA m (getAuthorKey c₀.author) <;>
      simp [hasRep, bumpStats_getA_rep]
  · have hrb : (r₀ == r) = false := by simpa using hr
    cases h : getA m (getAuthorKey c₀.author) <;>
      simp [hasRep, bumpStats_getA_rep, hr, hrb, seedStats, getA]

theorem step_repC (m : List (String × ContributorStats)) (r₀ : String)
    (c₀ : Commit) (k : String) (hk : getAuthorKey c₀.author = k)
    (r : String) :
    repC (getA (applyCommit m r₀ c₀) k) r =
      repC (getA m k) r + (if r₀ = r then 1 else 0) := by
  rw [← hk, applyCommit_getA_eq]
  by_cases hr : r₀ = r
  · subst hr
    cases h : getA m (getAuthorKey c₀.author) with
    | none => simp [repC, bumpStats_getA_rep, seedStats, getA]
    | some s =>
      cases hb : getA s.repositories r₀ <;>
        simp [repC, bumpStats_getA_rep, hb]
  · cases h : getA m (getAuthorKey c₀.author) with
    | none => simp [repC, bumpStats_getA_rep, hr, seedStats, getA]
    | some s => simp [repC, bumpStats_getA_rep, hr]

theorem step_repA (m : List (String × ContributorStats)) (r₀ : String)
    (c₀ : Commit) (k : String) (hk : getAuthorKey c₀.author = k)
    (r : String) :
    repA (getA (applyCommit m r₀ c₀) k) r =
      repA (getA m k) r + (if r₀ = r then c₀.stats.additions else 0) := by
  rw [← hk, applyCommit_getA_eq]
  by_cases hr : r₀ = r
  · subst hr
    cases h : getA m (getAuthorKey c₀.author) with
    | none => simp [repA, bumpStats_getA_rep, seedStats, getA]
    | some s =>
      cases hb : getA s.repositories r₀ <;>
        simp [repA, bumpStats_getA_rep, hb]
  · cases h : getA m (getAuthorKey c₀.author) with
    | none => simp [repA, bumpStats_getA_rep, hr, seedStats, getA]
    | some s => simp [repA, bumpStats_getA_rep, hr]

theorem step_repD (m : List (String × ContributorStats)) (r₀ : String)
    (c₀ : Commit) (k : String) (hk : getAuthorKey c₀.author = k)
    (r : String) :
    repD (getA (applyCommit m r₀ c₀) k) r =
      repD (getA m k) r + (if r₀ = r then c₀.stats.deletions else 0) := by
  rw [← hk, applyCommit_getA_eq]
  by_cases hr : r₀ = r
  · subst hr
    cases h : getA m (getAuthorKey c₀.author) with
    | none => simp [repD, bumpStats_getA_rep, seedStats, getA]
    | some s =>
      cases hb : getA s.repositories r₀ <;>
        simp [repD, bumpStats_getA_rep, hb]
  · cases h : getA m (getAuthorKey c₀.author) with
    | none => simp [repD, bumpStats_getA_rep, hr, seedStats, getA]
    | some s => simp [repD, bumpStats_getA_rep, hr]

theorem cKey_cons (rc : String × Commit) (l : List (String × Commit))
    (k : String) :
    cKey (rc :: l) k = (if keyPred k rc then 1 else 0) + cKey l k := by
  by_cases h : keyPred k rc <;> simp [cKey, List.filter_cons, h] <;> omega

theorem aKey_cons (rc : String × Commit) (l : List (String × Commit))
    (k : String) :
    aKey (rc :: l) k =
      (if keyPred k rc then rc.2.stats.additions else 0) + aKey l k := by
  by_cases h : keyPred k rc <;> simp [aKey, List.filter_cons, h]

theorem dKey_cons (rc : String × Commit) (l : List (String × Commit))
    (k : String) :
    dKey (rc :: l) k =
      (if keyPred k rc then rc.2.stats.deletions else 0) + dKey l k := by
  by_cases h : keyPred k rc <;> simp [dKey, List.filter_cons, h]

theorem cRep_cons (rc : String × Commit) (l : List (String × Commit))
    (k r : String) :
    cRep (rc :: l) k r = (if repPred k r rc then 1 else 0) + cRep l k r := by
  by_cases h : repPred k r rc <;> simp [cRep, List.filter_cons, h] <;> omega

theorem aRep_cons (rc : String × Commit) (l : List (String × Commit))
    (k r : String) :
    aRep (rc :: l) k r =
      (if repPred k r rc then rc.2.stats.additions else 0) + aRep l k r := by
  by_cases h : repPred k r rc <;> simp [aRep, List.filter_cons, h]

theorem dRep_cons (rc : String × Commit) (l : List (String × Commit))
    (k r : String) :
    dRep (rc :: l) k r =
      (if repPred k r rc then rc.2.stats.deletions else 0) + dRep l k r := by
  by_cases h : repPred k r rc <;> simp [dRep, List.filter_cons, h]

theorem anyKey_cons (rc : String × Commit) (l : List (String × Commit))
    (k : String) :
    anyKey (rc :: l) k = (keyPred k rc || anyKey l k) := by
  simp [anyKey, List.any_cons]

theorem anyRep_cons (rc : String × Commit) (l : List (String × Commit))
    (k r : String) :
    anyRep (rc :: l) k r = (repPred k r rc || anyRep l k r) := by
  simp [anyRep, List.any_cons]

theorem aggFold_char (l : List (String × Commit)) :
    ∀ (m : List (String × ContributorStats)) (k r : String),
      hasEntry (getA (aggFold m l) k) =
          (hasEntry (getA m k) || anyKey l k) ∧
        totC (getA (aggFold m l) k) = totC (getA m k) + cKey l k ∧
        totA (getA (aggFold m l) k) = totA (getA m k) + aKey l k ∧
        totD (getA (aggFold m l) k) = totD (getA m k) + dKey l k ∧
        hasRep (getA (aggFold m l) k) r =
          (hasRep (getA m k) r || anyRep l k r) ∧
        repC (getA (aggFold m l) k) r = repC (getA m k) r + cRep l k r ∧
        repA (getA (aggFold m l) k) r = repA (getA m k) r + aRep l k r ∧
        repD (getA (aggFold m l) k) r = repD (getA m k) r + dRep l k r := by
  induction l with
  | nil =>
    intro m k r
    simp [aggFold, anyKey, anyRep, cKey, aKey, dKey, cRep, aRep, dRep]
  | cons rc l ih =>
    intro m k r
    obtain ⟨r₀, c₀⟩ := rc
    have hfold :
        aggFold m ((r₀, c₀) :: l) = aggFold (applyCommit m r₀ c₀) l := rfl
    obtain ⟨s₁, s₂, s₃, s₄, s₅, s₆, s₇, s₈⟩ := ih (applyCommit m r₀ c₀) k r
    rw [hfold]
    by_cases hk : getAuthorKey c₀.author = k
    · have hkb : keyPred k (r₀, c₀) = true := by simp [keyPred, entryKey, hk]
      refine ⟨?_, ?_, ?_, ?_, ?_, ?_, ?_, ?_⟩
      · rw [s₁, step_hasEntry m r₀ c₀ k hk, anyKey_cons, hkb]
        simp
      · rw [s₂, step_totC m r₀ c₀ k hk, cKey_cons, hkb]
        simp
        omega
      · rw [s₃, step_totA m r₀ c₀ k hk, aKey_cons, hkb]
        simp
        omega
      · rw [s₄, step_totD m r₀ c₀ k hk, dKey_cons, hkb]
        simp
        omega
      · rw [s₅, step_hasRep m r₀ c₀ k hk r, anyRep_cons]
        have hrp : repPred k r (r₀, c₀) = (r₀ == r) := by
          simp [repPred, entryKey, hk]
        rw [hrp, Bool.or_assoc]
      · rw [s₆, step_repC m r₀ c₀ k hk r, cRep_cons]
        have hrp : repPred k r (r₀, c₀) = (r₀ == r) := by
          simp [repPred, entryKey, hk]
        rw [hrp]
        by_cases hr : r₀ = r <;> simp [hr] <;> omega
      · rw [s₇, step_repA m r₀ c₀ k hk r, aRep_cons]
        have hrp : repPred k r (r₀, c₀) = (r₀ == r) := by
          simp [repPred, entryKey, hk]
        rw [hrp]
        by_cases hr : r₀ = r <;> simp [hr] <;> omega
      · rw [s₈, step_repD m r₀ c₀ k hk r, dRep_cons]
        have hrp : repPred k r (r₀, c₀) = (r₀ == r) := by
          simp [repPred, entryKey, hk]
        rw [hrp]
        by_cases hr : r₀ = r <;> simp [hr] <;> omega
    · have hne := applyCommit_getA_ne m r₀ c₀ k hk
      have hkb : keyPred k (r₀, c₀) = false := by
        simp [keyPred, entryKey, hk]
      have hrp : repPred k r (r₀, c₀) = false := by
        simp [repPred, entryKey, hkb, hk]
      refine ⟨?_, ?_, ?_, ?_, ?_, ?_, ?_, ?_⟩
      · rw [s₁, hne, anyKey_cons, hkb]
        simp
      · rw [s₂, hne, cKey_cons, hkb]
        simp
      · rw [s₃, hne, aKey_cons, hkb]
        simp
      · rw [s₄, hne, dKey_cons, hkb]
        simp
      · rw [s₅, hne, anyRep_cons, hrp]
        simp
      · rw [s₆, hne, cRep_cons, hrp]
        simp
      · rw [s₇, hne, aRep_cons, hrp]
        simp
      · rw [s₈, hne, dRep_cons, hrp]
        simp

theorem perm_any {α : Type} (l₁ l₂ : List α) (h : List.Perm l₁ l₂)
    (p : α → Bool) : l₁.any p = l₂.any p := by
  cases e₁ : l₁.any p with
  | true =>
    obtain ⟨x, hx, hp⟩ := List.any_eq_true.mp e₁
    exact (List.any_eq_true.mpr ⟨x, h.mem_iff.mp hx, hp⟩).symm
  | false =>
    cases e₂ : l₂.any p with
    | false => rfl
    | true =>
      obtain ⟨x, hx, hp⟩ := List.any_eq_true.mp e₂
      have := List.any_eq_true.mpr ⟨x, h.mem_iff.mpr hx, hp⟩
      rw [e₁] at this
      exact this

theorem perm_cKey (l₁ l₂ : List (String × Commit)) (h : List.Perm l₁ l₂)
    (k : String) : cKey l₁ k = cKey l₂ k := by
  simp [cKey, (h.filter (keyPred k)).length_eq]

theorem perm_anyKey (l₁ l₂ : List (String × Commit)) (h : List.Perm l₁ l₂)
    (k : String) : anyKey l₁ k = anyKey l₂ k := by
  unfold anyKey
  exact perm_any _ _ h _

theorem perm_anyRep (l₁ l₂ : List (String × Commit)) (h : List.Perm l₁ l₂)
    (k r : String) : anyRep l₁ k r = anyRep l₂ k r := by
  unfold anyRep
  exact perm_any _ _ h _

theorem perm_aKey (l₁ l₂ : List (String × Commit)) (h : List.Perm l₁ l₂)
    (k : String) : aKey l₁ k = aKey l₂ k := by
  unfold aKey
  exact ((h.filter (keyPred k)).map (fun rc => rc.2.stats.additions)).sum_eq

theorem perm_dKey (l₁ l₂ : List (String × Commit)) (h : List.Perm l₁ l₂)
    (k : String) : dKey l₁ k = dKey l₂ k := by
  unfold dKey
  exact ((h.filter (keyPred k)).map (fun rc => rc.2.stats.deletions)).sum_eq

theorem perm_cRep (l₁ l₂ : List (String × Commit)) (h : List.Perm l₁ l₂)
    (k r : String) : cRep l₁ k r = cRep l₂ k r := by
  simp [cRep, (h.filter (repPred k r)).length_eq]

theorem perm_aRep (l₁ l₂ : List (String × Commit)) (h : List.Perm l₁ l₂)
    (k r : String) : aRep l₁ k r = aRep l₂ k r := by
  unfold aRep
  exact ((h.filter (repPred k r)).map (fun rc => rc.2.stats.additions)).sum_eq

theorem perm_dRep (l₁ l₂ : List (String × Commit)) (h : List.Perm l₁ l₂)
    (k r : String) : dRep l₁ k r = dRep l₂ k r := by
  unfold dRep
  exact ((h.filter (repPred k r)).map (fun rc => rc.2.stats.deletions)).sum_eq

/-- C2 (amended): permuting the traversal order of repositories,
branches and commits preserves the set of author keys and every numeric
component of every contributor entry — the global totals and the full
per-repository bucket mapping; only the seeded Name/Email/Login fields
may depend on traversal order. -/
theorem generateSummary_perm_invariant_numerics
    (repos₁ repos₂ : List Repository)
    (h : List.Perm (flattenCommits repos₁) (flattenCommits repos₂))
    (k r : String) :
    hasEntry (getA (generateSummary repos₁) k) =
        hasEntry (getA (generateSummary repos₂) k) ∧
      totC (getA (generateSummary repos₁) k) =
        totC (getA (generateSummary repos₂) k) ∧
      totA (getA (generateSummary repos₁) k) =
        totA (getA (generateSummary repos₂) k) ∧
      totD (getA (generateSummary repos₁) k) =
        totD (getA (generateSummary repos₂) k) ∧
      hasRep (getA (generateSummary repos₁) k) r =
        hasRep (getA (generateSummary repos₂) k) r ∧
      repC (getA (generateSummary repos₁) k) r =
        repC (getA (generateSummary repos₂) k) r ∧
      repA (getA (generateSummary repos₁) k) r =
        repA (getA (generateSummary repos₂) k) r ∧
      repD (getA (generateSummary repos₁) k) r =
        repD (getA (generateSummary repos₂) k) r := by
  rw [generateSummary_eq_aggFold, generateSummary_eq_aggFold]
  obtain ⟨a₁, a₂, a₃, a₄, a₅, a₆, a₇, a₈⟩ :=
    aggFold_char (flattenCommits repos₁) [] k r
  obtain ⟨b₁, b₂, b₃, b₄, b₅, b₆, b₇, b₈⟩ :=
    aggFold_char (flattenCommits repos₂) [] k r
  refine ⟨?_, ?_, ?_, ?_, ?_, ?_, ?_, ?_⟩
  · rw [a₁, b₁, perm_anyKey _ _ h]
  · rw [a₂, b₂, perm_cKey _ _ h]
  · rw [a₃, b₃, perm_aKey _ _ h]
  · rw [a₄, b₄, perm_dKey _ _ h]
  · rw [a₅, b₅, perm_anyRep _ _ h]
  · rw [a₆, b₆, perm_cRep _ _ h]
  · rw [a₇, b₇, perm_aRep _ _ h]
  · rw [a₈, b₈, perm_dRep _ _ h]

/-- A commit by login `x` whose author display name is `Alice`. -/
def cexCommitA : Commit := ⟨"s1", "m1", ⟨"Alice", "", "x"⟩, 0, ⟨1, 1, 2⟩⟩

/-- A commit by the same login `x` whose display name is `Bob`. -/
def cexCommitB : Commit := ⟨"s2", "m2", ⟨"Bob", "", "x"⟩, 0, ⟨2, 2, 4⟩⟩

/-- One repository with the two `x` commits in order A, B. -/
def cexRepos₁ : List Repository :=
  [⟨"r", "o/r", "", "main", [⟨"main", "", [cexCommitA, cexCommitB]⟩]⟩]

/-- The same repository with the two commits in order B, A. -/
def cexRepos₂ : List Repository :=
  [⟨"r", "o/r", "", "main", [⟨"main", "", [cexCommitB, cexCommitA]⟩]⟩]

theorem cex_flatten_perm :
    List.Perm (flattenCommits cexRepos₁) (flattenCommits cexRepos₂) := by
  have h₁ : flattenCommits cexRepos₁ =
      [("o/r", cexCommitA), ("o/r", cexCommitB)] := rfl
  have h₂ : flattenCommits cexRepos₂ =
      [("o/r", cexCommitB), ("o/r", cexCommitA)] := rfl
  rw [h₁, h₂]
  exact List.Perm.swap _ _ _

/-- C2 counterexample: permuting the commit traversal order does not
yield an identical summary mapping — the entry for key `x` differs
(its seeded Name comes from whichever commit is traversed first). -/
theorem generateSummary_not_order_independent :
    List.Perm (flattenCommits cexRepos₁) (flattenCommits cexRepos₂) ∧
      getA (generateSummary cexRepos₁) "x" ≠
        getA (generateSummary cexRepos₂) "x" :=
  ⟨cex_flatten_perm, by decide⟩

/-- Witness for the amended C2 on the concrete permuted pair. -/
theorem generateSummary_perm_invariant_numerics_witness :
    List.Perm (flattenCommits cexRepos₁) (flattenCommits cexRepos₂) ∧
      totC (getA (generateSummary cexRepos₁) "x") =
        totC (getA (generateSummary cexRepos₂) "x") :=
  ⟨cex_flatten_perm,
    (generateSummary_perm_invariant_numerics cexRepos₁ cexRepos₂
      cex_flatten_perm "x" "o/r").2.1⟩

/-! ## Repository Processor and Fetch Coordinator -/

/-- Go `strings.Split` for a one-character separator, on the character
list of the string: split at every occurrence, keeping empty segments
(so `""` gives `[""]` and `"/"` gives `["", ""]`). -/
def splitChar (sep : Char) : List Char → List (List Char)
  | [] => [[]]
  | c :: rest =>
    match splitChar sep rest with
    | [] => [[]]
    | g :: gs => if c = sep then [] :: g :: gs else (c :: g) :: gs

/-- `strings.Split(fullName, "/")` as used by `processRepository`. -/
def splitSlash (s : String) : List String :=
  (splitChar '/' s.data).map (fun l => ⟨l⟩)

theorem splitChar_length (sep : Char) (l : List Char) :
    (splitChar sep l).length = l.count sep + 1 := by
  induction l with
  | nil => rfl
  | cons c rest ih =>
    simp only [splitChar]
    cases hg : splitChar sep rest with
    | nil => rw [hg] at ih; simp at ih
    | cons g gs =>
      rw [hg] at ih
      by_cases hc : c = sep
      · subst hc
        simp only [List.length_cons, List.count_cons] at ih ⊢
        simp only [eq_self_iff_true, if_true, beq_self_eq_true,
          List.length_cons]
        omega
      · have hcb : (sep == c) = false := by
          simpa using fun e => hc e.symm
        have hcb' : (c == sep) = false := by simpa using hc
        simp only [List.length_cons, List.count_cons, hcb, hcb', hc,
          if_false, Bool.false_eq_true] at ih ⊢
        omega

theorem splitSlash_length (s : String) :
    (splitSlash s).length = s.data.count '/' + 1 := by
  simp [splitSlash, splitChar_length]

/-- The Remote Repository Provider boundary seen by the Repository
Processor: branch-list and commit-list responses, indexed by the
arguments the processor passes; the fixed `since`/`until` window of one
run is folded into the commit-list function. -/
structure Provider where
  listBranches : String → String → Except String (List Branch)
  listCommits : String → String → String → Except String (List Commit)

/-- The per-branch loop of `processRepository`: fetch each selected
branch's commits; on failure the Go code logs a warning and skips the
branch, otherwise it attaches the commits and keeps the branch. -/
def processBranches (p : Provider) (owner repoName : String)
    (toProcess : List Branch) : List Branch :=
  toProcess.foldl
    (fun acc branch =>
      match p.listCommits owner repoName branch.name with
      | .error _ => acc
      | .ok commits => acc ++ [{ branch with commits := commits }])
    []

/-- The body of `processRepository` after the full-name check. -/
def processRepoBody (p : Provider) (owner repoName : String)
    (repo : Repository) : Except String Repository :=
  match p.listBranches owner repoName with
  | .error e => .error e
  | .ok branches =>
    .ok { repo with
      branches := processBranches p owner repoName
        (selectBranchesToProcess branches repo.defaultBranch) }

/-- `processRepository` from the reporter (`types.go`): split the full
name into owner and short name (exactly two segments required), list
and select branches, fetch the selected branches' commits. -/
def processRepository (p : Provider) (repo : Repository) :
    Except String Repository :=
  match splitSlash repo.fullName with
  | [owner, repoName] => processRepoBody p owner repoName repo
  | _ => .error ("invalid repository name format: " ++ repo.fullName)

/-- The Fetch Coordinator of `GenerateReport`: each repository is
consumed by exactly one worker (`processRepositoryWorker`), which
pushes exactly one outcome — the processed repository onto the results
stream or one wrapped error onto the errors stream; the pool's
interleaving is abstracted by a fold recording that single outcome per
repository. -/
def runAll (p : Provider) (repos : List Repository) :
    List Repository × List String :=
  repos.foldr
    (fun repo acc =>
      match processRepository p repo with
      | .ok r => (r :: acc.1, acc.2)
      | .error e =>
        (acc.1, ("repository " ++ repo.fullName ++ ": " ++ e) :: acc.2))
    ([], [])

/-- C6: the Fetch Coordinator never drops a repository silently — every
input repository contributes exactly one outcome, so successes plus
failures equal the input count, and a per-repository failure never
aborts the batch. -/
theorem runAll_accounts_for_every_repository (p : Provider)
    (repos : List Repository) :
    (runAll p repos).1.length + (runAll p repos).2.length = repos.length := by
  induction repos with
  | nil => rfl
  | cons repo repos ih =>
    unfold runAll at ih ⊢
    rw [List.foldr_cons]
    cases processRepository p repo with
    | ok r => simp only [List.length_cons]; omega
    | error e => simp only [List.length_cons]; omega

theorem processBranches_eq_filterMap (p : Provider) (owner repoName : String)
    (toProcess : List Branch) :
    processBranches p owner repoName toProcess =
      toProcess.filterMap
        (fun branch =>
          match p.listCommits owner repoName branch.name with
          | .error _ => none
          | .ok commits => some { branch with commits := commits }) := by
  suffices h : ∀ (l : List Branch) (acc : List Branch),
      l.foldl
          (fun acc branch =>
            match p.listCommits owner repoName branch.name with
            | .error _ => acc
            | .ok commits => acc ++ [{ branch with commits := commits }])
          acc =
        acc ++ l.filterMap
          (fun branch =>
            match p.listCommits owner repoName branch.name with
            | .error _ => none
            | .ok commits => some { branch with commits := commits }) by
    simpa [processBranches] using h toProcess []
  intro l
  induction l with
  | nil => intro acc; simp
  | cons b l ih =>
    intro acc
    rw [List.foldl_cons, List.filterMap_cons]
    cases h : p.listCommits owner repoName b.name with
    | error e => simp only [h]; exact ih acc
    | ok cs =>
      simp only [h]
      rw [ih]
      simp

/-- C8: when the full name parses and the branch listing succeeds,
`processRepository` succeeds and its result contains exactly the
selected branches whose commit fetch succeeded (with their fetched
commits attached); when every selected branch's fetch fails, the
repository is still returned successfully with an empty branch list. -/
theorem processRepository_skips_failed_branches (p : Provider)
    (repo : Repository) (owner repoName : String) (branches : List Branch)
    (hname : splitSlash repo.fullName = [owner, repoName])
    (hbr : p.listBranches owner repoName = .ok branches) :
    processRepository p repo =
        .ok { repo with
          branches :=
            (selectBranchesToProcess branches repo.defaultBranch).filterMap
              (fun branch =>
                match p.listCommits owner repoName branch.name with
                | .error _ => none
                | .ok commits => some { branch with commits := commits }) } ∧
      ((∀ b ∈ selectBranchesToProcess branches repo.defaultBranch,
          ∃ e, p.listCommits owner repoName b.name = .error e) →
        processRepository p repo = .ok { repo with branches := [] }) := by
  have hmain : processRepository p repo =
      .ok { repo with
        branches :=
          (selectBranchesToProcess branches repo.defaultBranch).filterMap
            (fun branch =>
              match p.listCommits owner repoName branch.name with
              | .error _ => none
              | .ok commits => some { branch with commits := commits }) } := by
    unfold processRepository
    rw [hname]
    dsimp only
    unfold processRepoBody
    rw [hbr]
    dsimp only
    rw [processBranches_eq_filterMap]
  refine ⟨hmain, ?_⟩
  intro hall
  rw [hmain]
  have hnil :
      (selectBranchesToProcess branches repo.defaultBranch).filterMap
          (fun branch =>
            match p.listCommits owner repoName branch.name with
            | .error _ => none
            | .ok commits => some { branch with commits := commits }) = [] := by
    rw [List.filterMap_eq_nil_iff]
    intro b hb
    obtain ⟨e, he⟩ := hall b hb
    simp [he]
  rw [hnil]

/-- A provider whose commit listing always fails. -/
def allFailProvider : Provider :=
  { listBranches := fun _ _ => .ok [⟨"main", "", []⟩],
    listCommits := fun _ _ _ => .error "boom" }

/-- The repository record used to witness C8. -/
def c8Repo : Repository := ⟨"r", "o/r", "", "main", []⟩

/-- Witness for C8: with every branch fetch failing, the repository is
still returned successfully, with an empty branch list. -/
theorem processRepository_skips_failed_branches_witness :
    splitSlash c8Repo.fullName = ["o", "r"] ∧
      allFailProvider.listBranches "o" "r" = .ok [⟨"main", "", []⟩] ∧
      processRepository allFailProvider c8Repo =
        .ok { c8Repo with branches := [] } :=
  ⟨rfl, rfl,
    (processRepository_skips_failed_branches allFailProvider c8Repo "o" "r"
        [⟨"main", "", []⟩] rfl rfl).2
      (fun _ _ => ⟨"boom", rfl⟩)⟩

/-- C9: the malformed-identity check only counts `/` separators — the
invalid-name error occurs exactly when the full name does not split on
`/` into two segments (the segment count is one more than the number of
`/` characters), and with exactly two segments, even empty ones, the
owner and short name are passed on to the provider calls. -/
theorem processRepository_name_check (p : Provider) (repo : Repository) :
    (∀ owner repoName, splitSlash repo.fullName = [owner, repoName] →
        processRepository p repo = processRepoBody p owner repoName repo) ∧
      ((splitSlash repo.fullName).length ≠ 2 →
        processRepository p repo =
          .error ("invalid repository name format: " ++ repo.fullName)) ∧
      (splitSlash repo.fullName).length = repo.fullName.data.count '/' + 1 := by
  refine ⟨?_, ?_, splitSlash_length repo.fullName⟩
  · intro owner repoName h
    unfold processRepository
    rw [h]
  · intro h
    unfold processRepository
    cases hs : splitSlash repo.fullName with
    | nil => rfl
    | cons a t =>
      cases t with
      | nil => rfl
      | cons b t₂ =>
        cases t₂ with
        | nil => exact absurd (by rw [hs]; rfl) h
        | cons c t₃ => rfl

/-- A repository whose full name has an empty short-name segment. -/
def c9Repo : Repository := ⟨"r", "owner/", "", "main", []⟩

/-- Witness for C9: `owner/` splits into `["owner", ""]` and is
accepted — the empty short name is passed to the provider calls. -/
theorem processRepository_name_check_witness :
    splitSlash c9Repo.fullName = ["owner", ""] ∧
      processRepository allFailProvider c9Repo =
        processRepoBody allFailProvider "owner" "" c9Repo :=
  ⟨rfl, (processRepository_name_check allFailProvider c9Repo).1 "owner" "" rfl⟩

/-! ## Branch Selector bounds (C10) -/

theorem filterMap_find_names (branches : List Branch) (ns : List String) :
    (ns.filterMap (fun n => branches.find? (fun b => b.name == n))).map
        (fun b => b.name) =
      ns.filter (fun n => (branches.find? (fun b => b.name == n)).isSome) := by
  induction ns with
  | nil => rfl
  | cons n ns ih =>
    cases hf : branches.find? (fun b => b.name == n) with
    | none => simp [List.filterMap_cons, List.filter_cons, hf, ih]
    | some b =>
      have hbn : b.name = n := by simpa using List.find?_some hf
      simp [List.filterMap_cons, List.filter_cons, hf, ih, hbn]

theorem mem_of_filterMap_find (branches : List Branch) (ns : List String)
    (b : Branch)
    (h : b ∈ ns.filterMap (fun n => branches.find? (fun b => b.name == n))) :
    b ∈ branches := by
  obtain ⟨n, _, hf⟩ := List.mem_filterMap.mp h
  exact List.mem_of_find?_eq_some hf

/-- C10: every selector output has at most 7 branches, pairwise
distinct branch names, and contains only branches drawn from the input
list. -/
theorem selectBranchesToProcess_bounded (branches : List Branch)
    (defaultBranch : String) :
    (selectBranchesToProcess branches defaultBranch).length ≤ 7 ∧
      ((selectBranchesToProcess branches defaultBranch).map
          (fun b => b.name)).Nodup ∧
      ∀ b ∈ selectBranchesToProcess branches defaultBranch, b ∈ branches := by
  rw [select_eq_selectSpec]
  unfold selectSpec
  cases hf : branches.find? (fun b => b.name == defaultBranch) with
  | none =>
    dsimp only
    refine ⟨?_, ?_, ?_⟩
    · rw [List.nil_append]
      calc ((importantBranches.filter _).filterMap _).length
          ≤ (importantBranches.filter
              (fun n => !([] : List Branch).any (fun b => b.name == n))).length :=
            List.length_filterMap_le _ _
        _ ≤ importantBranches.length := List.length_filter_le _ _
        _ ≤ 7 := by decide
    · rw [List.nil_append, filterMap_find_names]
      exact (importantBranches_nodup.filter _).filter _
    · intro b hb
      rw [List.nil_append] at hb
      exact mem_of_filterMap_find _ _ _ hb
  | some b =>
    dsimp only
    refine ⟨?_, ?_, ?_⟩
    · rw [List.length_append]
      have h₁ :=
        List.length_filterMap_le
          (fun n => branches.find? (fun b' => b'.name == n))
          (importantBranches.filter
            (fun n => !([b].any (fun b' => b'.name == n))))
      have h₂ :=
        List.length_filter_le
          (fun n => !([b].any (fun b' => b'.name == n))) importantBranches
      have h₃ : importantBranches.length = 6 := rfl
      simp only [List.length_cons, List.length_nil]
      omega
    · rw [List.map_append, filterMap_find_names]
      simp only [List.map_cons, List.map_nil, List.singleton_append]
      rw [List.nodup_cons]
      refine ⟨?_, (importantBranches_nodup.filter _).filter _⟩
      intro hmem
      have h₁ := (List.mem_filter.mp hmem).1
      have h₂ := (List.mem_filter.mp h₁).2
      simp at h₂
    · intro b' hb'
      rcases List.mem_append.mp hb' with h | h
      · rw [List.mem_singleton] at h
        subst h
        exact List.mem_of_find?_eq_some hf
      · exact mem_of_filterMap_find _ _ _ h

/-- Witness for C10: a selected branch is indeed an input branch. -/
theorem selectBranchesToProcess_bounded_witness :
    (⟨"main", "", []⟩ : Branch) ∈ selectBranchesToProcess scenarioBranches "main" ∧
      (⟨"main", "", []⟩ : Branch) ∈ scenarioBranches :=
  ⟨by decide,
    (selectBranchesToProcess_bounded scenarioBranches "main").2.2 _ (by decide)⟩

/-! ## Client commit listing (C7) -/

/-- The stats of the provider's detailed-commit response
(`GetCommit(...).GetStats()`): additions, deletions, and a
pre-aggregated total that `ListCommits` copies verbatim. -/
structure GHStats where
  additions : Int
  deletions : Int
  total : Int
deriving DecidableEq

/-- The fields of `commit.GetCommit()` read by `ListCommits`. -/
structure GHCommitData where
  authorName : String
  authorEmail : String
  authorDate : Int
  message : String
deriving DecidableEq

/-- A list-response commit (`*github.RepositoryCommit`): sha, inner
commit data, and the optional GitHub account (`GetAuthor()`), of which
only the login is read. -/
structure GHRepositoryCommit where
  sha : String
  commit : GHCommitData
  author : Option String
deriving DecidableEq

/-- The conversion loop of `client.ListCommits` (`github.go`): for each
listed commit fetch the detailed stats (skipping the commit when that
fetch fails), build the `Author` (login only when a GitHub account is
attached), and copy the provider's additions, deletions and total
verbatim into `CommitStats`. -/
def clientListCommits (getCommit : String → Except String GHStats)
    (allCommits : List GHRepositoryCommit) : List Commit :=
  allCommits.foldl
    (fun result c =>
      match getCommit c.sha with
      | .error _ => result
      | .ok st =>
        result ++
          [{ sha := c.sha, message := c.commit.message,
             author :=
              { name := c.commit.authorName, email := c.commit.authorEmail,
                login :=
                  match c.author with
                  | some login => login
                  | none => "" },
             date := c.commit.authorDate,
             stats :=
              { additions := st.additions, deletions := st.deletions,
                total := st.total } }])
    []

/-- A provider whose pre-aggregated total is inconsistent. -/
def badStatsGet : String → Except String GHStats := fun _ => .ok ⟨1, 1, 5⟩

/-- A provider whose pre-aggregated stats satisfy the invariant. -/
def goodStatsGet : String → Except String GHStats := fun _ => .ok ⟨3, 4, 7⟩

/-- A list-response commit used in the C7 statements. -/
def cexGHCommit : GHRepositoryCommit := ⟨"sha1", ⟨"A", "a@x", 0, "m"⟩, some "a"⟩

/-- C7 counterexample: `ListCommits` copies the provider's `Total`
verbatim, so a provider reporting additions 1, deletions 1, total 5
yields a pipeline `Commit` violating `Total = Additions + Deletions`. -/
theorem clientListCommits_total_not_invariant :
    (clientListCommits badStatsGet [cexGHCommit]).all
        (fun c => c.stats.total == c.stats.additions + c.stats.deletions) =
      false := by
  decide

/-- C7 (amended): every `Commit` the pipeline produces satisfies
`Total = Additions + Deletions` provided the provider's detailed
statistics satisfy that equality — the code copies the three fields
verbatim and does not itself establish the invariant. -/
theorem clientListCommits_total_eq (getCommit : String → Except String GHStats)
    (allCommits : List GHRepositoryCommit)
    (h : ∀ sha st, getCommit sha = .ok st →
      st.total = st.additions + st.deletions) :
    ∀ c ∈ clientListCommits getCommit allCommits,
      c.stats.total = c.stats.additions + c.stats.deletions := by
  suffices hs : ∀ (l : List GHRepositoryCommit) (acc : List Commit),
      (∀ c ∈ acc, c.stats.total = c.stats.additions + c.stats.deletions) →
      ∀ c ∈ l.foldl
          (fun result c =>
            match getCommit c.sha with
            | .error _ => result
            | .ok st =>
              result ++
                [{ sha := c.sha, message := c.commit.message,
                   author :=
                    { name := c.commit.authorName,
                      email := c.commit.authorEmail,
                      login :=
                        match c.author with
                        | some login => login
                        | none => "" },
                   date := c.commit.authorDate,
                   stats :=
                    { additions := st.additions, deletions := st.deletions,
                      total := st.total } }])
          acc,
        c.stats.total = c.stats.additions + c.stats.deletions by
    exact hs allCommits [] (by simp)
  intro l
  induction l with
  | nil => intro acc hacc; exact hacc
  | cons gh l ih =>
    intro acc hacc
    rw [List.foldl_cons]
    cases hg : getCommit gh.sha with
    | error e => simp only [hg]; exact ih acc hacc
    | ok st =>
      simp only [hg]
      apply ih
      intro c hc
      rcases List.mem_append.mp hc with hcm | hcm
      · exact hacc c hcm
      · rw [List.mem_singleton] at hcm
        subst hcm
        simpa using h gh.sha st hg

/-- The commit `clientListCommits` produces from `goodStatsGet`. -/
def goodCommitOut : Commit := ⟨"sha1", "m", ⟨"A", "a@x", "a"⟩, 0, ⟨3, 4, 7⟩⟩

/-- Witness for the amended C7: with a consistent provider the produced
commit satisfies the invariant. -/
theorem clientListCommits_total_eq_witness :
    goodCommitOut ∈ clientListCommits goodStatsGet [cexGHCommit] ∧
      goodCommitOut.stats.total =
        goodCommitOut.stats.additions + goodCommitOut.stats.deletions :=
  ⟨by decide,
    clientListCommits_total_eq goodStatsGet [cexGHCommit]
      (fun sha st h => by
        simp only [goodStatsGet, Except.ok.injEq] at h
        rw [← h]
        decide)
      goodCommitOut (by decide)⟩

end GhReporting
